import Mathlib

/-!
Shallow embedding of the UTXO blockchain sources.

The repository has two implementations:
* `src/src/blockchain/{transaction,utxo,block,blockchain}.py` — the main one
  (namespace-free definitions below);
* `src/blockchain.py` — an older standalone implementation whose
  `is_chain_valid` is the subject of one claim (namespace `Legacy`).

SHA-256 is modelled as an abstract hash function passed as a parameter:
`String → String` for the Merkle combination step, and structured-input
functions for transaction ids and block-header hashes, mirroring
`sha256(json.dumps(data, sort_keys=True))` which is an injective encoding of
the hashed fields composed with SHA-256.  Python `int` is modelled as `Int`
(`Nat` for lengths, difficulties and indices produced by `enumerate`/`len`),
floats used only as opaque timestamps are modelled as `Int`, and Python
lists/dicts as `List` (dict = association list with replace-on-insert,
mirroring insertion-ordered `dict`).
-/

/-- First `n` characters of a string, modelling Python `s[:n]`. -/
def strTake (s : String) (n : Nat) : String := ⟨s.data.take n⟩

/-- The string `"0" * n`. -/
def zeroStr (n : Nat) : String := ⟨List.replicate n '0'⟩

/-- Last element of a list with a default, modelling Python `l[-1]`
(total stand-in; the sources only evaluate it on non-empty lists). -/
def lastD {α : Type} : List α → α → α
  | [], d => d
  | [x], _ => x
  | _ :: y :: t, d => lastD (y :: t) d

/-- `transaction.py` / `src/blockchain.py` `TransactionInput`. -/
structure TransactionInput where
  txid : String
  output_index : Int
  signature : String
deriving DecidableEq, Repr

/-- `transaction.py` / `src/blockchain.py` `TransactionOutput`. -/
structure TransactionOutput where
  value : Int
  recipient : String
deriving DecidableEq, Repr

/-- `transaction.py` `Transaction`: `txid` is computed from the content at
construction (see `mkTransaction`) and carried as a stored field. -/
structure Transaction where
  inputs : List TransactionInput
  outputs : List TransactionOutput
  timestamp : Int
  txid : String
deriving DecidableEq, Repr

/-- The data hashed by `Transaction.calculate_txid`
(`json.dumps` of inputs, outputs and timestamp). -/
structure TxData where
  inputs : List TransactionInput
  outputs : List TransactionOutput
  timestamp : Int
deriving DecidableEq, Repr

/-- `Transaction.__init__`: stores the fields and computes `txid` with
`calculate_txid`, modelled by the abstract hash `ht`. -/
def mkTransaction (ht : TxData → String) (inputs : List TransactionInput)
    (outputs : List TransactionOutput) (timestamp : Int) : Transaction :=
  ⟨inputs, outputs, timestamp, ht ⟨inputs, outputs, timestamp⟩⟩

/-- `Transaction.is_coinbase`: true iff the input list is empty. -/
def Transaction.isCoinbase (tx : Transaction) : Bool := tx.inputs = []

/-- Sum of the output values of a transaction. -/
def totalOutput (tx : Transaction) : Int := (tx.outputs.map (·.value)).sum

/-- Association-list lookup, modelling `dict.get` on the UTXO dictionary. -/
def lookupKey : List ((String × Int) × TransactionOutput) → (String × Int) →
    Option TransactionOutput
  | [], _ => none
  | e :: t, k => if e.1 = k then some e.2 else lookupKey t k

/-- Association-list insert, modelling `dict[k] = v` (replace in place if the
key is present, else append, as in an insertion-ordered Python dict). -/
def insertKey : List ((String × Int) × TransactionOutput) → (String × Int) →
    TransactionOutput → List ((String × Int) × TransactionOutput)
  | [], k, v => [(k, v)]
  | e :: t, k, v => if e.1 = k then (k, v) :: t else e :: insertKey t k v

/-- Association-list removal, modelling `dict.pop(k, None)` (no-op when the
key is absent). -/
def removeKey : List ((String × Int) × TransactionOutput) → (String × Int) →
    List ((String × Int) × TransactionOutput)
  | [], _ => []
  | e :: t, k => if e.1 = k then t else e :: removeKey t k

/-- `utxo.py` `UTXOSet`: mapping `(txid, output_index) → TransactionOutput`. -/
structure UTXOSet where
  utxos : List ((String × Int) × TransactionOutput)
deriving DecidableEq, Repr

/-- `UTXOSet.add_utxo`. -/
def addUtxo (u : UTXOSet) (txid : String) (idx : Int) (o : TransactionOutput) :
    UTXOSet := ⟨insertKey u.utxos (txid, idx) o⟩

/-- `UTXOSet.remove_utxo`. -/
def removeUtxo (u : UTXOSet) (txid : String) (idx : Int) : UTXOSet :=
  ⟨removeKey u.utxos (txid, idx)⟩

/-- `UTXOSet.get_utxo`. -/
def getUtxo (u : UTXOSet) (txid : String) (idx : Int) : Option TransactionOutput :=
  lookupKey u.utxos (txid, idx)

/-- `UTXOSet.get_balance`: sum of the values of the entries whose recipient
is the given address. -/
def getBalance (u : UTXOSet) (address : String) : Int :=
  ((u.utxos.filter (fun e => e.2.recipient = address)).map (fun e => e.2.value)).sum

/-- The `(txid, output_index)` key referenced by an input. -/
def inputKey (i : TransactionInput) : String × Int := (i.txid, i.output_index)

/-- The value an input refers to in a UTXO set (0 when absent; only used
when presence has been established). -/
def inputValue (u : UTXOSet) (i : TransactionInput) : Int :=
  match getUtxo u i.txid i.output_index with
  | some o => o.value
  | none => 0

/-- Sum of the referenced input values of a list of inputs. -/
def inputSum (u : UTXOSet) (l : List TransactionInput) : Int :=
  (l.map (inputValue u)).sum

/-- The input loop of `UTXOSet.validate_transaction`: walks the inputs in
order keeping the `seen_inputs` set and the accumulated `total_input`;
`none` models the early `return False, 0`. -/
def validateLoop (u : UTXOSet) (seen : List (String × Int)) (total : Int) :
    List TransactionInput → Option Int
  | [] => some total
  | i :: rest =>
    if inputKey i ∈ seen then none
    else
      match getUtxo u i.txid i.output_index with
      | none => none
      | some o => validateLoop u (inputKey i :: seen) (total + o.value) rest

/-- `UTXOSet.validate_transaction`: coinbase is always `(True, 0)`; otherwise
run the input loop, then reject iff the total input is below the total
output. -/
def validateTransaction (u : UTXOSet) (tx : Transaction) : Bool × Int :=
  if tx.inputs = [] then (true, 0)
  else
    match validateLoop u [] 0 tx.inputs with
    | none => (false, 0)
    | some total => if total < totalOutput tx then (false, 0) else (true, total)

/-- Second half of `UTXOSet.apply_transaction`: add one entry per output,
keyed by `(tx.txid, position)` as produced by `enumerate`. -/
def applyOutputs (txid : String) : UTXOSet → Nat → List TransactionOutput → UTXOSet
  | u, _, [] => u
  | u, i, o :: t => applyOutputs txid (addUtxo u txid (Int.ofNat i) o) (i + 1) t

/-- `UTXOSet.apply_transaction`: remove every consumed entry, then add the
new outputs. -/
def applyTransaction (u : UTXOSet) (tx : Transaction) : UTXOSet :=
  applyOutputs tx.txid
    (tx.inputs.foldl (fun acc i => removeUtxo acc i.txid i.output_index) u)
    0 tx.outputs

/-- `UTXOSet.apply_block`: apply every transaction in block order. -/
def applyBlockTxs (u : UTXOSet) (txs : List Transaction) : UTXOSet :=
  txs.foldl applyTransaction u

/-- `block.py` block-header fields hashed by `BlockHeader.calculate_hash`
(`json.dumps` of version, previous hash, Merkle root, timestamp, difficulty
and nonce). -/
structure HeaderData where
  version : Nat
  previous_hash : String
  merkle_root : String
  timestamp : Int
  difficulty : Nat
  nonce : Nat
deriving DecidableEq, Repr

/-- `block.py` `Block` with its stored fields (the header fields are kept in
sync with the top-level copies by every constructor in the source). -/
structure Block where
  index : Nat
  transactions : List Transaction
  previous_hash : String
  difficulty : Nat
  timestamp : Int
  merkle_root : String
  nonce : Nat
  hash : String
deriving DecidableEq, Repr

/-- One pairing round of `Block.calculate_merkle_root`: concatenate adjacent
hashes and hash each pair (only reached on even-length lists in the source;
a dangling singleton is kept unchanged to stay total). -/
def pairUp (hs : String → String) : List String → List String
  | a :: b :: rest => hs (a ++ b) :: pairUp hs rest
  | l => l

/-- Intermediate-level padding of `calculate_merkle_root`: if more than one
hash remains and the count is odd, duplicate the last hash. -/
def padEven (l : List String) : List String :=
  if l.length > 1 ∧ l.length % 2 ≠ 0 then l ++ [lastD l ""] else l

/-- The `while len(hashes) > 1` loop of `calculate_merkle_root`, with fuel;
each round at least halves the list, so fuel equal to the initial length is
always sufficient. -/
def merkleRounds (hs : String → String) : Nat → List String → String
  | 0, l => l.headD ""
  | fuel + 1, l =>
    if l.length ≤ 1 then l.headD ""
    else merkleRounds hs fuel (padEven (pairUp hs l))

/-- `Block.calculate_merkle_root`: empty list hashes to the hash of the empty
input; otherwise start from the transaction ids, duplicate the last one if
the count is odd, and reduce pairwise to a single hash. -/
def calculateMerkleRoot (hs : String → String) (txs : List Transaction) : String :=
  if txs = [] then hs ""
  else
    let hashes := txs.map Transaction.txid
    let hashes := if hashes.length % 2 ≠ 0 then hashes ++ [lastD hashes ""] else hashes
    merkleRounds hs hashes.length hashes

/-- `BlockHeader.calculate_hash` via the abstract header hash `hh`. -/
def headerHash (hh : HeaderData → String) (b : Block) : String :=
  hh ⟨1, b.previous_hash, b.merkle_root, b.timestamp, b.difficulty, b.nonce⟩

/-- `Block.__init__`: stores the fields, computes the Merkle root from the
transaction list, sets `nonce = 0` and computes the header hash. -/
def mkBlock (hs : String → String) (hh : HeaderData → String) (index : Nat)
    (txs : List Transaction) (previous_hash : String) (difficulty : Nat)
    (timestamp : Int) : Block :=
  let root := calculateMerkleRoot hs txs
  { index := index, transactions := txs, previous_hash := previous_hash
    difficulty := difficulty, timestamp := timestamp, merkle_root := root
    nonce := 0
    hash := hh ⟨1, previous_hash, root, timestamp, difficulty, 0⟩ }

/-- `Block.validate`: previous-hash field equals the expected hash, the
stored hash meets the block's own difficulty target, and the freshly
recomputed Merkle root equals the stored one. -/
def blockValidate (hs : String → String) (b : Block) (previousHash : String) : Bool :=
  if b.previous_hash ≠ previousHash then false
  else if strTake b.hash b.difficulty ≠ zeroStr b.difficulty then false
  else if calculateMerkleRoot hs b.transactions ≠ b.merkle_root then false
  else true

/-- `blockchain.py` `Blockchain` state. -/
structure BlockchainState where
  difficulty : Nat
  chain : List Block
  pending_transactions : List Transaction
  utxo : UTXOSet
  forks : List (List Block)
deriving DecidableEq, Repr

/-- A throwaway block used as the default of `lastD` (never reached on the
non-empty chains the source maintains). -/
def dfltBlock : Block := ⟨0, [], "", 0, 0, "", 0, ""⟩

/-- `Blockchain.last_block`: the last block of the active chain. -/
def lastBlockD (st : BlockchainState) : Block := lastD st.chain dfltBlock

/-- `Blockchain.add_transaction`: validate against the live UTXO set; on
success append to the pending pool. -/
def addTransaction (st : BlockchainState) (tx : Transaction) :
    Bool × BlockchainState :=
  if (validateTransaction st.utxo tx).1
  then (true, { st with pending_transactions := st.pending_transactions ++ [tx] })
  else (false, st)

/-- The transaction loop of `Blockchain.is_valid_block`: threads the
temporary (deep-copied) UTXO set, the `seen_txids` set and the accumulated
fees; `none` models the early `return False`.  Coinbase transactions are
recorded in `seen_txids` and then skipped. -/
def blockTxLoop (u : UTXOSet) (seen : List String) (fees : Int) :
    List Transaction → Option (UTXOSet × List String × Int)
  | [] => some (u, seen, fees)
  | tx :: rest =>
    if tx.txid ∈ seen then none
    else if tx.isCoinbase then blockTxLoop u (tx.txid :: seen) fees rest
    else
      match validateTransaction u tx with
      | (false, _) => none
      | (true, input_value) =>
        blockTxLoop (applyTransaction u tx) (tx.txid :: seen)
          (fees + (input_value - totalOutput tx)) rest

/-- The final coinbase check of `Blockchain.is_valid_block`: only when the
first transaction exists and is a coinbase, require exactly one output of
value 50. -/
def coinbaseOk (txs : List Transaction) : Bool :=
  match txs with
  | [] => true
  | t0 :: _ =>
    if t0.isCoinbase then
      if t0.outputs.length ≠ 1 then false
      else if (t0.outputs.headD ⟨0, ""⟩).value ≠ 50 then false
      else true
    else true

/-- `Blockchain.is_valid_block`: structural/PoW/Merkle validation against the
current tip, then the transaction loop on a copy of the UTXO set, then the
coinbase check. -/
def isValidBlock (hs : String → String) (st : BlockchainState) (b : Block) : Bool :=
  if ¬ blockValidate hs b (lastBlockD st).hash then false
  else
    match blockTxLoop st.utxo [] 0 b.transactions with
    | none => false
    | some _ => coinbaseOk b.transactions

/-- `Blockchain.get_chain_difficulty`: `Σ 2^difficulty` over a chain. -/
def getChainDifficulty (chain : List Block) : Nat :=
  (chain.map (fun b => 2 ^ b.difficulty)).sum

/-- `Blockchain._switch_to_fork`: reset the UTXO set, replay
`chain[:len(fork_chain) - 1]`, then `fork_chain[len(chain):]`, repoint the
chain to the fork and drop the fork entry. -/
def switchToFork (st : BlockchainState) (fork_chain : List Block) (i : Nat) :
    BlockchainState :=
  let u0 : UTXOSet := ⟨[]⟩
  let u1 := (st.chain.take (fork_chain.length - 1)).foldl
    (fun u b => applyBlockTxs u b.transactions) u0
  let u2 := (fork_chain.drop st.chain.length).foldl
    (fun u b => applyBlockTxs u b.transactions) u1
  { st with utxo := u2, chain := fork_chain, forks := st.forks.eraseIdx i }

/-- Whether a fork sequence's tip hash equals the candidate's previous hash
(`block.previous_hash == fork_chain[-1].hash`). -/
def forkTipMatches (b : Block) (fc : List Block) : Bool :=
  b.previous_hash = (lastD fc dfltBlock).hash

/-- `Blockchain._handle_fork`: extend the first tracked fork whose tip
matches, switching when the extended fork is strictly longer than the chain;
otherwise start a new fork from the first canonical block whose hash matches;
otherwise reject. -/
def handleFork (st : BlockchainState) (b : Block) : Bool × BlockchainState :=
  match st.forks.findIdx? (forkTipMatches b) with
  | some i =>
    let fc := (st.forks.getD i []) ++ [b]
    if fc.length > st.chain.length then (true, switchToFork st fc i)
    else (true, { st with forks := st.forks.set i fc })
  | none =>
    if st.chain.any (fun blk => blk.hash = b.previous_hash) then
      let fork_index := st.chain.findIdx (fun blk => blk.hash = b.previous_hash)
      (true, { st with forks := st.forks ++ [st.chain.take (fork_index + 1) ++ [b]] })
    else (false, st)

/-- `Blockchain.add_block`: validate (against the current tip), then either
route to fork handling (when the previous hash differs from the tip) or
append to the main chain and apply the block to the live UTXO set. -/
def addBlock (hs : String → String) (st : BlockchainState) (b : Block) :
    Bool × BlockchainState :=
  if ¬ isValidBlock hs st b then (false, st)
  else if b.previous_hash ≠ (lastBlockD st).hash then handleFork st b
  else (true, { st with chain := st.chain ++ [b],
                        utxo := applyBlockTxs st.utxo b.transactions })

/-- `src/blockchain.py` (standalone legacy implementation) `Block` dataclass
with its stored fields. -/
structure LBlock where
  index : Nat
  transactions : List Transaction
  previous_hash : String
  timestamp : Int
  nonce : Nat
  hash : String
deriving DecidableEq, Repr

/-- The data hashed by the legacy `Block.calculate_hash` (`json.dumps` of
index, the transaction ids, previous hash, timestamp and nonce). -/
structure LBlockData where
  index : Nat
  txids : List String
  previous_hash : String
  timestamp : Int
  nonce : Nat
deriving DecidableEq, Repr

namespace Legacy

/-- The header-relevant content of a legacy block. -/
def blockData (b : LBlock) : LBlockData :=
  ⟨b.index, b.transactions.map Transaction.txid, b.previous_hash, b.timestamp, b.nonce⟩

/-- Legacy `Block.calculate_hash` via the abstract hash `hb`. -/
def calculateHash (hb : LBlockData → String) (b : LBlock) : String :=
  hb (blockData b)

/-- The body of one iteration of the legacy `Blockchain.is_chain_valid` loop:
for the pair (previous block, current block), recompute the current hash,
check the previous-hash reference, and check proof of work at the chain
difficulty. -/
def pairOk (hb : LBlockData → String) (d : Nat) (prev cur : LBlock) : Bool :=
  if cur.hash ≠ calculateHash hb cur then false
  else if cur.previous_hash ≠ prev.hash then false
  else if strTake cur.hash d ≠ zeroStr d then false
  else true

/-- The legacy `is_chain_valid` loop over indices `1 .. len(chain) - 1`,
expressed over adjacent pairs. -/
def chainOk (hb : LBlockData → String) (d : Nat) : List LBlock → Bool
  | a :: b :: t => pairOk hb d a b && chainOk hb d (b :: t)
  | _ => true

/-- Legacy `Blockchain.is_chain_valid` on a chain at chain difficulty `d`. -/
def isChainValid (hb : LBlockData → String) (d : Nat) (chain : List LBlock) : Bool :=
  chainOk hb d chain

/-- Chains produced only through the legacy acceptance path: the constructed
genesis, extended by `mine_pending_transactions`, whose mining loop
establishes exactly that the appended block's stored hash is its recomputed
hash, that it points at the previous tip, and that it meets the difficulty
target. -/
inductive Produced (hb : LBlockData → String) (d : Nat) : List LBlock → Prop
  | start (g : LBlock) : Produced hb d [g]
  | extend (c : List LBlock) (p b : LBlock) (hc : Produced hb d c)
      (hlast : c.getLast? = some p)
      (hhash : b.hash = calculateHash hb b)
      (hprev : b.previous_hash = p.hash)
      (hpow : strTake b.hash d = zeroStr d) :
      Produced hb d (c ++ [b])

/-- A throwaway legacy block used as a `getD` default. -/
def dfltLBlock : LBlock := ⟨0, [], "", 0, 0, ""⟩

end Legacy

/-- A concrete stand-in for the SHA-256 string hash used in witnesses and
counterexamples (injective on its input up to the tag). -/
def hsC : String → String := fun s => "m:" ++ s

/-- A concrete stand-in for the header hash used in witnesses and
counterexamples: discriminates on previous hash, Merkle root and
difficulty. -/
def hhC : HeaderData → String := fun hd =>
  "h:" ++ hd.previous_hash ++ ":" ++ hd.merkle_root ++ ":" ++ zeroStr hd.difficulty

/-- A concrete stand-in for the transaction-id hash used in witnesses and
counterexamples: distinct non-negative timestamps give distinct ids. -/
def htC : TxData → String := fun td => "t" ++ zeroStr td.timestamp.toNat

/-- A throwaway transaction used as a `lastD`/`headD` default. -/
def dfltTx : Transaction := ⟨[], [], 0, ""⟩

/-- A throwaway input used as a `headD` default. -/
def dfltIn : TransactionInput := ⟨"", 0, ""⟩

/-- Concrete coinbase-style transaction paying 7 to `alice`. -/
def txA : Transaction := mkTransaction htC [] [⟨7, "alice"⟩] 1

/-- Concrete coinbase-style transaction paying 9 to `bob`. -/
def txB : Transaction := mkTransaction htC [] [⟨9, "bob"⟩] 2

/-- Concrete transaction spending output 0 of transaction `"p"`. -/
def tx1 : Transaction := mkTransaction htC [⟨"p", 0, "s"⟩] [⟨5, "y"⟩] 3

/-- Concrete transaction also spending output 0 of transaction `"p"`. -/
def tx2 : Transaction := mkTransaction htC [⟨"p", 0, "s"⟩] [⟨4, "z"⟩] 4

/-- A transaction referencing an absent UTXO (always invalid). -/
def txBad : Transaction := mkTransaction htC [⟨"missing", 0, "s"⟩] [] 9

/-- Concrete genesis block (difficulty 0, so the mining loop exits at
nonce 0 and construction already yields the mined block). -/
def gB : Block := mkBlock hsC hhC 0 [] (zeroStr 64) 0 10

/-- Concrete difficulty-0 block extending the genesis block. -/
def b1C : Block := mkBlock hsC hhC 1 [] gB.hash 0 11

/-- State with canonical chain `[gB, b1C]`, no forks, empty UTXO set. -/
def S1 : BlockchainState := ⟨0, [gB, b1C], [], ⟨[]⟩, []⟩

/-- Candidate block whose previous hash targets the canonical ancestor `gB`
rather than the tip `b1C`. -/
def fC1 : Block := mkBlock hsC hhC 1 [] gB.hash 0 12

/-- Difficulty-0 canonical block at height 1 (used by the fork scenarios). -/
def c1C : Block := mkBlock hsC hhC 1 [] gB.hash 0 20

/-- Difficulty-0 canonical block at height 2. -/
def c2C : Block := mkBlock hsC hhC 2 [] c1C.hash 0 21

/-- Difficulty-5 fork block at height 1 (greater work than the canonical
difficulty-0 blocks). -/
def f1C : Block := mkBlock hsC hhC 1 [] gB.hash 5 22

/-- Difficulty-5 fork block extending `f1C`. -/
def f2C : Block := mkBlock hsC hhC 2 [] f1C.hash 5 23

/-- State with canonical chain `[gB, c1C, c2C]` (cumulative work 3) and one
tracked fork `[gB, f1C]` (cumulative work 33). -/
def S2 : BlockchainState := ⟨0, [gB, c1C, c2C], [], ⟨[]⟩, [[gB, f1C]]⟩

/-- Canonical block at height 2 carrying the payment to `alice`. -/
def c2A : Block := mkBlock hsC hhC 2 [txA] c1C.hash 0 31

/-- Fork block at height 2 carrying the payment to `bob`. -/
def f2B : Block := mkBlock hsC hhC 2 [txB] c1C.hash 0 32

/-- Fork block at height 3 extending `f2B` (takes the fork to length 4). -/
def f3C : Block := mkBlock hsC hhC 3 [] f2B.hash 0 33

/-- The UTXO set after replaying the canonical chain `[gB, c1C, c2A]`. -/
def u3 : UTXOSet :=
  applyBlockTxs (applyBlockTxs (applyBlockTxs ⟨[]⟩ gB.transactions)
    c1C.transactions) c2A.transactions

/-- State with canonical chain `[gB, c1C, c2A]` of length 3 and one tracked
fork `[gB, c1C, f2B]` sharing its first two blocks. -/
def S3 : BlockchainState := ⟨0, [gB, c1C, c2A], [], u3, [[gB, c1C, f2B]]⟩

/-- Well-shaped concrete coinbase transaction (one output of value 50). -/
def cb4 : Transaction := mkTransaction htC [] [⟨50, "m1"⟩] 6

/-- Malformed concrete coinbase transaction: two outputs, values not 50. -/
def cbBad : Transaction := mkTransaction htC [] [⟨30, "m2"⟩, ⟨25, "m3"⟩] 7

/-- State with canonical chain `[gB]` and an empty UTXO set. -/
def S4 : BlockchainState := ⟨0, [gB], [], ⟨[]⟩, []⟩

/-- Candidate block carrying a well-shaped coinbase at index 0 and a second,
malformed coinbase at index 1. -/
def b4 : Block := mkBlock hsC hhC 1 [cb4, cbBad] gB.hash 0 40

/-- Candidate block whose first transaction is a malformed coinbase. -/
def b4bad : Block := mkBlock hsC hhC 1 [cbBad] gB.hash 0 42

/-- UTXO set holding the single spendable output `("p", 0) ↦ 10 → x`. -/
def u5 : UTXOSet := ⟨[(("p", 0), ⟨10, "x"⟩)]⟩

/-- State with canonical chain `[gB]` and UTXO set `u5`. -/
def S5 : BlockchainState := ⟨0, [gB], [], u5, []⟩

/-- Concrete coinbase for the miner of block `b7`. -/
def cb7 : Transaction := mkTransaction htC [] [⟨50, "miner"⟩] 8

/-- State with canonical chain `[gB]`, UTXO set `u5` and `tx1` pending. -/
def S7 : BlockchainState := ⟨0, [gB], [tx1], u5, []⟩

/-- Valid candidate block containing the pending transaction `tx1`. -/
def b7 : Block := mkBlock hsC hhC 1 [cb7, tx1] gB.hash 0 41

/-- Concrete legacy block-hash stand-in discriminating on the nonce. -/
def hLC : LBlockData → String := fun bd => if bd.nonce = 0 then "a" else "b"

/-- Concrete legacy genesis block, hash-consistent under `hLC`. -/
def gL : LBlock := ⟨0, [], zeroStr 64, 0, 0, "a"⟩

/-- `gL` with its stored `nonce` field mutated (stored hash untouched). -/
def gLmut : LBlock := { gL with nonce := 1 }

/-- Concrete legacy block extending `gL`, hash-consistent under `hLC`. -/
def bL : LBlock := ⟨1, [], "a", 5, 0, "a"⟩

/-- `bL` with its stored `nonce` field mutated (stored hash untouched). -/
def bLmut : LBlock := { bL with nonce := 3 }

/-- `inputSum` unfolds over a cons cell. -/
lemma inputSum_cons (u : UTXOSet) (i : TransactionInput) (l : List TransactionInput) :
    inputSum u (i :: l) = inputValue u i + inputSum u l := by
  simp [inputSum]

/-- Order-independent characterisation of the input loop of
`validate_transaction`: it succeeds iff the walked inputs are pairwise
distinct, disjoint from the already-seen keys and all present in the set,
and then returns the accumulated total plus the referenced values. -/
lemma validateLoop_eq (u : UTXOSet) :
    ∀ (l : List TransactionInput) (seen : List (String × Int)) (total : Int),
    validateLoop u seen total l =
      if (l.map inputKey).Nodup
          ∧ (∀ i ∈ l, inputKey i ∉ seen)
          ∧ (∀ i ∈ l, (getUtxo u i.txid i.output_index).isSome = true)
      then some (total + inputSum u l) else none
  | [], seen, total => by
      simp [validateLoop, inputSum]
  | i :: rest, seen, total => by
      by_cases hseen : inputKey i ∈ seen
      · have hC : ¬(((i :: rest).map inputKey).Nodup
            ∧ (∀ x ∈ i :: rest, inputKey x ∉ seen)
            ∧ (∀ x ∈ i :: rest, (getUtxo u x.txid x.output_index).isSome = true)) := by
          rintro ⟨-, h2, -⟩
          exact h2 i (by simp) hseen
        simp only [validateLoop, if_pos hseen, if_neg hC]
      · cases hget : getUtxo u i.txid i.output_index with
        | none =>
          have hC : ¬(((i :: rest).map inputKey).Nodup
              ∧ (∀ x ∈ i :: rest, inputKey x ∉ seen)
              ∧ (∀ x ∈ i :: rest, (getUtxo u x.txid x.output_index).isSome = true)) := by
            rintro ⟨-, -, h3⟩
            have := h3 i (by simp)
            rw [hget] at this
            simp at this
          simp only [validateLoop, if_neg hseen, hget, if_neg hC]
        | some o =>
          have hCC : (((i :: rest).map inputKey).Nodup
              ∧ (∀ x ∈ i :: rest, inputKey x ∉ seen)
              ∧ (∀ x ∈ i :: rest, (getUtxo u x.txid x.output_index).isSome = true))
              ↔ ((rest.map inputKey).Nodup
              ∧ (∀ x ∈ rest, inputKey x ∉ inputKey i :: seen)
              ∧ (∀ x ∈ rest, (getUtxo u x.txid x.output_index).isSome = true)) := by
            constructor
            · rintro ⟨h1, h2, h3⟩
              refine ⟨(List.nodup_cons.mp (by simpa using h1)).2, ?_,
                fun x hx => h3 x (List.mem_cons_of_mem _ hx)⟩
              intro x hx
              simp only [List.mem_cons, not_or]
              refine ⟨?_, h2 x (List.mem_cons_of_mem _ hx)⟩
              intro heq
              exact (List.nodup_cons.mp (by simpa using h1)).1
                (heq ▸ List.mem_map_of_mem inputKey hx)
            · rintro ⟨h1, h2, h3⟩
              refine ⟨by
                simp only [List.map_cons]
                refine List.nodup_cons.mpr ⟨?_, h1⟩
                intro hmem
                obtain ⟨x, hx, heq⟩ := List.mem_map.mp hmem
                have := h2 x hx
                rw [heq] at this
                exact this (List.mem_cons_self _ _), ?_, ?_⟩
              · intro x hx
                rcases List.mem_cons.mp hx with rfl | hx'
                · exact hseen
                · have := h2 x hx'
                  simp only [List.mem_cons, not_or] at this
                  exact this.2
              · intro x hx
                rcases List.mem_cons.mp hx with rfl | hx'
                · rw [hget]; rfl
                · exact h3 x hx'
          have hrec := validateLoop_eq u rest (inputKey i :: seen) (total + o.value)
          simp only [validateLoop, if_neg hseen, hget, hrec]
          by_cases hC : ((rest.map inputKey).Nodup
              ∧ (∀ x ∈ rest, inputKey x ∉ inputKey i :: seen)
              ∧ (∀ x ∈ rest, (getUtxo u x.txid x.output_index).isSome = true))
          · rw [if_pos hC, if_pos (hCC.mpr hC)]
            have hval : inputValue u i = o.value := by
              simp [inputValue, hget]
            rw [inputSum_cons, hval, add_assoc]
          · rw [if_neg hC, if_neg (fun h => hC (hCC.mp h))]

/-- C6: `validateTransaction` returns `(true, 0)` on every zero-input
(coinbase) transaction with no further checks; on a non-coinbase transaction
it fails exactly when two inputs share a `(txid, output index)` key, some
referenced key is absent from the set, or the referenced input values sum to
less than the output values, and otherwise returns `(true, total referenced
input value)`. -/
theorem validateTransaction_characterisation (u : UTXOSet) (tx : Transaction) :
    validateTransaction u tx =
      if tx.inputs = [] then (true, 0)
      else if (tx.inputs.map inputKey).Nodup
          ∧ (∀ i ∈ tx.inputs, (getUtxo u i.txid i.output_index).isSome = true)
          ∧ totalOutput tx ≤ inputSum u tx.inputs
        then (true, inputSum u tx.inputs) else (false, 0) := by
  by_cases hcb : tx.inputs = []
  · simp [validateTransaction, hcb]
  · rw [validateTransaction, if_neg hcb, if_neg hcb, validateLoop_eq]
    have htriv : ∀ i ∈ tx.inputs, inputKey i ∉ ([] : List (String × Int)) := by
      simp
    by_cases hcond : (tx.inputs.map inputKey).Nodup
        ∧ (∀ i ∈ tx.inputs, (getUtxo u i.txid i.output_index).isSome = true)
    · rw [if_pos ⟨hcond.1, htriv, hcond.2⟩, zero_add]
      by_cases hle : totalOutput tx ≤ inputSum u tx.inputs
      · rw [if_pos ⟨hcond.1, hcond.2, hle⟩]
        simp [not_lt.mpr hle]
      · rw [if_neg (fun h => hle h.2.2)]
        simp [not_le.mp hle]
    · rw [if_neg (fun h => hcond ⟨h.1, h.2.2⟩),
        if_neg (fun h => hcond ⟨h.1, h.2.1⟩)]

namespace Legacy

/-- Appending a block to a non-empty chain adds exactly one pair check. -/
lemma chainOk_append (hb : LBlockData → String) (d : Nat) :
    ∀ (c : List LBlock) (p b : LBlock), c.getLast? = some p →
    chainOk hb d (c ++ [b]) = (chainOk hb d c && pairOk hb d p b)
  | [], p, b => by intro h; simp at h
  | [x], p, b => by
      intro h
      simp only [List.getLast?_singleton, Option.some.injEq] at h
      subst h
      simp [chainOk]
  | x :: y :: t, p, b => by
      intro h
      have hlast : (y :: t).getLast? = some p := by
        simpa using h
      have ih := chainOk_append hb d (y :: t) p b hlast
      show (pairOk hb d x y && chainOk hb d ((y :: t) ++ [b]))
          = ((pairOk hb d x y && chainOk hb d (y :: t)) && pairOk hb d p b)
      rw [ih]
      exact (Bool.and_assoc _ _ _).symm

/-- A chain produced only through valid acceptances passes every pair
check. -/
lemma produced_chainOk (hb : LBlockData → String) (d : Nat) :
    ∀ (c : List LBlock), Produced hb d c → chainOk hb d c = true := by
  intro c hc
  induction hc with
  | start g => simp [chainOk]
  | extend c p b hc hlast hhash hprev hpow ih =>
      have hp : pairOk hb d p b = true := by
        unfold pairOk
        rw [if_neg (not_not_intro hhash), if_neg (not_not_intro hprev),
          if_neg (not_not_intro hpow)]
      rw [chainOk_append hb d c p b hlast, ih, hp]
      rfl

/-- A failing tail keeps the whole chain check false. -/
lemma chainOk_cons_false (hb : LBlockData → String) (d : Nat)
    (x : LBlock) (rest : List LBlock) (hne : rest ≠ [])
    (hfalse : chainOk hb d rest = false) :
    chainOk hb d (x :: rest) = false := by
  cases rest with
  | nil => exact absurd rfl hne
  | cons r t =>
      simp only [chainOk, hfalse, Bool.and_false]

/-- Replacing the block at position `i ≥ 1` with one failing its pair check
against its predecessor makes the whole chain check false. -/
lemma chainOk_set_false (hb : LBlockData → String) (d : Nat) :
    ∀ (c : List LBlock) (i : Nat) (b' : LBlock), 1 ≤ i → i < c.length →
    pairOk hb d (c.getD (i - 1) dfltLBlock) b' = false →
    chainOk hb d (c.set i b') = false
  | [], i, b' => by intro h1 h2 h3; simp at h2
  | a :: t, i, b' => by
      intro h1 h2 h3
      obtain ⟨j, rfl⟩ : ∃ j, i = j + 1 := ⟨i - 1, (Nat.succ_pred_eq_of_pos h1).symm⟩
      have hjlen : j < t.length := by
        simpa using Nat.lt_of_succ_lt_succ h2
      show chainOk hb d (a :: t.set j b') = false
      cases hj : j with
      | zero =>
          subst hj
          cases t with
          | nil => simp at hjlen
          | cons o t₂ =>
              have ha : pairOk hb d a b' = false := by
                simpa using h3
              show chainOk hb d (a :: b' :: t₂) = false
              simp only [chainOk, ha, Bool.false_and]
      | succ k =>
          subst hj
          have hrec : chainOk hb d (t.set (k + 1) b') = false := by
            refine chainOk_set_false hb d t (k + 1) b' (Nat.succ_le_succ (Nat.zero_le k)) hjlen ?_
            simpa using h3
          refine chainOk_cons_false hb d a (t.set (k + 1) b') ?_ hrec
          intro hnil
          rw [← List.length_eq_zero, List.length_set] at hnil
          omega

end Legacy

/-- C9 (amended): a legacy chain produced only through valid acceptances
passes `is_chain_valid`; replacing any block at index `≥ 1` by one whose
stored hash differs from its recomputed hash — which is what mutating any
single stored field does, absent a hash collision — makes `is_chain_valid`
false.  (The genesis block at index 0 is exempt: the loop starts at 1, as
the counterexample shows.) -/
theorem isChainValid_characterisation (hb : LBlockData → String) (d : Nat)
    (c : List LBlock) (hp : Legacy.Produced hb d c) :
    Legacy.isChainValid hb d c = true ∧
    ∀ (i : Nat) (b' : LBlock), 1 ≤ i → i < c.length →
      b'.hash ≠ Legacy.calculateHash hb b' →
      Legacy.isChainValid hb d (c.set i b') = false := by
  constructor
  · exact Legacy.produced_chainOk hb d c hp
  · intro i b' h1 h2 hneq
    refine Legacy.chainOk_set_false hb d c i b' h1 h2 ?_
    unfold Legacy.pairOk
    rw [if_pos hneq]

/-- C2 (amended): when a candidate extends a tracked fork, `_handle_fork`
returns true and performs a reorg if and only if the extended fork is
strictly longer (in block count) than the canonical chain; on a reorg the
chain is repointed to the fork, otherwise the canonical chain is untouched.
Cumulative work is never consulted. -/
theorem handleFork_length_reorg (st : BlockchainState) (b : Block) (i : Nat)
    (hfind : st.forks.findIdx? (forkTipMatches b) = some i) :
    handleFork st b =
      (true,
        if (st.forks.getD i [] ++ [b]).length > st.chain.length
        then switchToFork st (st.forks.getD i [] ++ [b]) i
        else { st with forks := st.forks.set i (st.forks.getD i [] ++ [b]) }) ∧
    (switchToFork st (st.forks.getD i [] ++ [b]) i).chain
      = st.forks.getD i [] ++ [b] ∧
    ({ st with forks := st.forks.set i (st.forks.getD i [] ++ [b]) }).chain
      = st.chain := by
  refine ⟨?_, rfl, rfl⟩
  simp only [handleFork, hfind]
  split <;> rfl

/-- C4 (amended): at block acceptance the coinbase shape rule (exactly one
output of value 50) is enforced only on the transaction at index 0 and only
when that transaction is a coinbase; when it applies and fails, the block is
rejected — even though `validateTransaction` alone accepts every coinbase
with `(true, 0)`. -/
theorem coinbase_rule_first_position_only :
    (∀ (hs : String → String) (st : BlockchainState) (b : Block)
        (t0 : Transaction) (rest : List Transaction),
      b.transactions = t0 :: rest → t0.inputs = [] →
      (t0.outputs.length ≠ 1 ∨ (t0.outputs.headD ⟨0, ""⟩).value ≠ 50) →
      isValidBlock hs st b = false) ∧
    (∀ (u : UTXOSet) (tx : Transaction), tx.inputs = [] →
      validateTransaction u tx = (true, 0)) := by
  constructor
  · intro hs st b t0 rest htx hcb hbad
    have ht0 : t0.isCoinbase = true := by
      simp [Transaction.isCoinbase, hcb]
    have hcbOk : coinbaseOk b.transactions = false := by
      rw [htx]
      show (if t0.isCoinbase = true then
          if t0.outputs.length ≠ 1 then false
          else if (t0.outputs.headD ⟨0, ""⟩).value ≠ 50 then false
          else true
        else true) = false
      rw [if_pos ht0]
      rcases hbad with hlen | hval
      · rw [if_pos hlen]
      · by_cases hlen : t0.outputs.length ≠ 1
        · rw [if_pos hlen]
        · rw [if_neg hlen, if_pos hval]
    unfold isValidBlock
    by_cases hv : blockValidate hs b (lastBlockD st).hash = true
    · rw [if_neg (not_not_intro hv)]
      cases hloop : blockTxLoop st.utxo [] 0 b.transactions with
      | none => rfl
      | some s => exact hcbOk
    · rw [if_pos hv]
  · intro u tx hcb
    simp [validateTransaction, hcb]

/-- C5 (amended): `add_transaction` validates only against the live UTXO
set, which pending transactions never modify; hence two transactions that
are each valid against the current set are both accepted into the pending
pool, even when they spend the same output. -/
theorem addTransaction_ignores_pending_conflicts (st : BlockchainState)
    (t1 t2 : Transaction)
    (h1 : (validateTransaction st.utxo t1).1 = true)
    (h2 : (validateTransaction st.utxo t2).1 = true) :
    (addTransaction st t1).1 = true ∧
    (addTransaction st t1).2.utxo = st.utxo ∧
    (addTransaction (addTransaction st t1).2 t2).1 = true := by
  refine ⟨?_, ?_, ?_⟩ <;> simp [addTransaction, h1, h2]

/-- C7 (amended): when a candidate block passes `is_valid_block` and its
previous hash equals the canonical tip's hash, `add_block` returns true,
appends the block to the canonical chain and applies its transactions to
the live UTXO set, leaving the tracked forks, the pending pool and the
difficulty unchanged (the pool is cleared only by `mine_block`). -/
theorem addBlock_happy_path (hs : String → String) (st : BlockchainState)
    (b : Block) (hne : st.chain ≠ [])
    (hvalid : isValidBlock hs st b = true)
    (hprev : b.previous_hash = (lastBlockD st).hash) :
    addBlock hs st b =
      (true, { st with chain := st.chain ++ [b],
                       utxo := applyBlockTxs st.utxo b.transactions }) := by
  unfold addBlock
  rw [if_neg (not_not_intro hvalid), if_neg (not_not_intro hprev)]

/-- Rejected fork handling leaves the state unchanged. -/
lemma handleFork_false_frame (st : BlockchainState) (b : Block)
    (h : (handleFork st b).1 = false) : (handleFork st b).2 = st := by
  cases hfi : st.forks.findIdx? (forkTipMatches b) with
  | some i =>
      simp only [handleFork, hfi] at h
      by_cases hlen : ((st.forks.getD i [] ++ [b]).length > st.chain.length)
      · rw [if_pos hlen] at h
        simp at h
      · rw [if_neg hlen] at h
        simp at h
  | none =>
      simp only [handleFork, hfi] at h ⊢
      by_cases hany : (st.chain.any fun blk => decide (blk.hash = b.previous_hash)) = true
      · rw [if_pos hany] at h
        simp at h
      · rw [if_neg hany] at h ⊢

/-- C8: every rejection — `add_block` returning false (structural/PoW/Merkle
failure, invalid or duplicate transaction, malformed first coinbase, or
unattachable previous hash) and `add_transaction` returning false — leaves
the whole state (chain, UTXO set, forks, pending pool) exactly unchanged;
block-acceptance validation only ever reads a copy of the UTXO set. -/
theorem rejection_leaves_state_unchanged (hs : String → String)
    (st : BlockchainState) (b : Block) (tx : Transaction) :
    ((addBlock hs st b).1 = false → (addBlock hs st b).2 = st) ∧
    ((addTransaction st tx).1 = false → (addTransaction st tx).2 = st) := by
  constructor
  · intro h
    unfold addBlock at h ⊢
    by_cases hv : isValidBlock hs st b = true
    · rw [if_neg (not_not_intro hv)] at h ⊢
      by_cases hp : b.previous_hash = (lastBlockD st).hash
      · rw [if_neg (not_not_intro hp)] at h
        simp at h
      · rw [if_pos hp] at h ⊢
        exact handleFork_false_frame st b h
    · rw [if_pos hv]
  · intro h
    unfold addTransaction at h ⊢
    by_cases hvt : (validateTransaction st.utxo tx).1 = true
    · rw [if_pos hvt] at h
      simp at h
    · rw [if_neg hvt]

/-- The last transaction id of a non-empty list is the id of the last
transaction. -/
lemma map_txid_lastD : ∀ (l : List Transaction), l ≠ [] →
    lastD (l.map Transaction.txid) "" = (lastD l dfltTx).txid
  | [], h => absurd rfl h
  | [x], _ => rfl
  | x :: y :: t, _ => map_txid_lastD (y :: t) (by simp)

/-- C10: for every odd-length transaction list the Merkle root equals the
root of the list with its last transaction appended once more; in
particular blocks over `[t]` and `[t, t]` (same remaining header fields)
get identical Merkle roots and identical header hashes. -/
theorem merkle_root_odd_padding (hs : String → String) (hh : HeaderData → String)
    (txs : List Transaction) (t : Transaction) (index : Nat) (prev : String)
    (d : Nat) (ts : Int) (hne : txs ≠ []) (hodd : txs.length % 2 = 1) :
    calculateMerkleRoot hs txs
      = calculateMerkleRoot hs (txs ++ [lastD txs dfltTx]) ∧
    (mkBlock hs hh index [t] prev d ts).merkle_root
      = (mkBlock hs hh index [t, t] prev d ts).merkle_root ∧
    (mkBlock hs hh index [t] prev d ts).hash
      = (mkBlock hs hh index [t, t] prev d ts).hash := by
  have key : ∀ (l : List Transaction), l ≠ [] → l.length % 2 = 1 →
      calculateMerkleRoot hs l = calculateMerkleRoot hs (l ++ [lastD l dfltTx]) := by
    intro l hl hl2
    have hne2 : ¬(l ++ [lastD l dfltTx] = []) := by
      simp
    simp only [calculateMerkleRoot]
    rw [if_neg hl, if_neg hne2]
    have hlen : (l.map Transaction.txid).length % 2 ≠ 0 := by
      rw [List.length_map]
      omega
    rw [if_pos hlen]
    have hmap : (l ++ [lastD l dfltTx]).map Transaction.txid
        = l.map Transaction.txid ++ [lastD (l.map Transaction.txid) ""] := by
      rw [List.map_append, map_txid_lastD l hl]
      rfl
    rw [hmap]
    have heven : ¬((l.map Transaction.txid
        ++ [lastD (l.map Transaction.txid) ""]).length % 2 ≠ 0) := by
      simp only [List.length_append, List.length_map, List.length_singleton]
      omega
    rw [if_neg heven]
  have h1t : calculateMerkleRoot hs [t] = calculateMerkleRoot hs [t, t] := by
    have := key [t] (by simp) (by simp)
    simpa [lastD] using this
  refine ⟨key txs hne hodd, h1t, ?_⟩
  show hh ⟨1, prev, calculateMerkleRoot hs [t], ts, d, 0⟩
      = hh ⟨1, prev, calculateMerkleRoot hs [t, t], ts, d, 0⟩
  rw [h1t]

/-- C1: evaluation at the failing input — a candidate block whose previous
hash is the hash of the canonical ancestor `gB` (not the tip) is rejected
outright by `add_block` with no fork created, because `is_valid_block`
checks `block.validate` against the current tip before the fork branch is
ever reached. -/
theorem addBlock_rejects_ancestor_block :
    addBlock hsC S1 fC1 = (false, S1) ∧
    fC1.previous_hash = gB.hash ∧
    gB ∈ S1.chain ∧
    S1.forks = [] ∧
    fC1.previous_hash ≠ (lastBlockD S1).hash := by
  decide

/-- C2: counterexample — extending the tracked fork `[gB, f1C]` with `f2C`
gives it cumulative work 65 against the canonical chain's 3, strictly
greater, yet no reorg happens (the canonical chain is untouched) because
the code compares lengths, not work. -/
theorem handleFork_work_counterexample :
    handleFork S2 f2C = (true, { S2 with forks := [[gB, f1C, f2C]] }) ∧
    (handleFork S2 f2C).2.chain = S2.chain ∧
    getChainDifficulty [gB, f1C, f2C] > getChainDifficulty S2.chain := by
  decide

/-- C2: witness for `handleFork_length_reorg` at the concrete fork
extension. -/
theorem handleFork_length_reorg_witness :
    S2.forks.findIdx? (forkTipMatches f2C) = some 0 ∧
    handleFork S2 f2C =
      (true,
        if (S2.forks.getD 0 [] ++ [f2C]).length > S2.chain.length
        then switchToFork S2 (S2.forks.getD 0 [] ++ [f2C]) 0
        else { S2 with forks := S2.forks.set 0 (S2.forks.getD 0 [] ++ [f2C]) }) :=
  ⟨by decide, (handleFork_length_reorg S2 f2C 0 (by decide)).1⟩

/-- C3: evaluation at the failing input — the fork `[gB, c1C, f2B]` grows to
length 4 and the reorg fires, but the rebuilt UTXO set still contains the
payment to `alice` made only in the discarded canonical block `c2A` (the
code replays `chain[:3]`, the whole old canonical chain), and misses the
payment to `bob` made in the fork-unique block `f2B` (the code replays only
`fork_chain[3:]`). -/
theorem switchToFork_replay_eval :
    (handleFork S3 f3C).1 = true ∧
    (handleFork S3 f3C).2.chain = [gB, c1C, f2B, f3C] ∧
    (handleFork S3 f3C).2.chain.length = 4 ∧
    getBalance (handleFork S3 f3C).2.utxo "alice" = 7 ∧
    getBalance (handleFork S3 f3C).2.utxo "bob" = 0 := by
  decide

/-- C4: counterexample — a block whose index-0 coinbase is well shaped but
which carries a second, malformed coinbase (two outputs, neither of value
50) at index 1 passes `is_valid_block` and is accepted by `add_block`. -/
theorem misplaced_coinbase_accepted :
    isValidBlock hsC S4 b4 = true ∧
    (addBlock hsC S4 b4).1 = true ∧
    b4.transactions.length = 2 ∧
    (b4.transactions.getD 1 dfltTx).inputs = [] ∧
    (b4.transactions.getD 1 dfltTx).outputs.length = 2 ∧
    ((b4.transactions.getD 1 dfltTx).outputs.headD ⟨0, ""⟩).value ≠ 50 := by
  decide

/-- C4: witness for `coinbase_rule_first_position_only` — a block whose
first transaction is a malformed coinbase is rejected, and
`validateTransaction` alone accepts that coinbase. -/
theorem coinbase_rule_witness :
    isValidBlock hsC S4 b4bad = false ∧
    validateTransaction u5 cbBad = (true, 0) :=
  ⟨coinbase_rule_first_position_only.1 hsC S4 b4bad cbBad [] (by decide) (by decide)
      (Or.inl (by decide)),
   coinbase_rule_first_position_only.2 u5 cbBad (by decide)⟩

/-- C5: counterexample — `tx1` and `tx2` each validate against the current
UTXO set and reference the same `(txid, output index)`, yet both
`submitTransaction` calls succeed (the second does not fail as claimed). -/
theorem double_spend_submissions_both_succeed :
    (validateTransaction S5.utxo tx1).1 = true ∧
    (validateTransaction S5.utxo tx2).1 = true ∧
    inputKey (tx1.inputs.headD dfltIn) = inputKey (tx2.inputs.headD dfltIn) ∧
    (addTransaction S5 tx1).1 = true ∧
    (addTransaction (addTransaction S5 tx1).2 tx2).1 = true := by
  decide

/-- C5: witness for `addTransaction_ignores_pending_conflicts` at the
concrete conflicting pair. -/
theorem addTransaction_ignores_pending_conflicts_witness :
    (addTransaction S5 tx1).1 = true ∧
    (addTransaction S5 tx1).2.utxo = S5.utxo ∧
    (addTransaction (addTransaction S5 tx1).2 tx2).1 = true :=
  addTransaction_ignores_pending_conflicts S5 tx1 tx2 (by decide) (by decide)

/-- C7: counterexample — the valid block `b7` containing the pending
non-coinbase transaction `tx1` is accepted, yet `tx1` is still in the
pending pool afterwards (`add_block` never touches the pool). -/
theorem addBlock_keeps_pending_pool :
    (addBlock hsC S7 b7).1 = true ∧
    (addBlock hsC S7 b7).2.pending_transactions = [tx1] ∧
    tx1 ∈ b7.transactions ∧
    tx1.isCoinbase = false := by
  decide

/-- C7: witness for `addBlock_happy_path` at the concrete acceptance. -/
theorem addBlock_happy_path_witness :
    addBlock hsC S7 b7 =
      (true, { S7 with chain := S7.chain ++ [b7],
                       utxo := applyBlockTxs S7.utxo b7.transactions }) :=
  addBlock_happy_path hsC S7 b7 (by decide) (by decide) (by decide)

/-- C8: witness for `rejection_leaves_state_unchanged` — a rejected block
and a rejected transaction leave the concrete state untouched. -/
theorem rejection_leaves_state_unchanged_witness :
    (addBlock hsC S1 fC1).2 = S1 ∧ (addTransaction S1 txBad).2 = S1 :=
  ⟨(rejection_leaves_state_unchanged hsC S1 fC1 txBad).1 (by decide),
   (rejection_leaves_state_unchanged hsC S1 fC1 txBad).2 (by decide)⟩

/-- C9: counterexample — the legacy `is_chain_valid` loop starts at index 1,
so mutating a stored field (the nonce) of the genesis block leaves the chain
reported valid even though the genesis block's stored hash no longer matches
its recomputed hash. -/
theorem genesis_mutation_undetected :
    Legacy.isChainValid hLC 2 [gL] = true ∧
    Legacy.isChainValid hLC 2 [gLmut] = true ∧
    gLmut ≠ gL ∧
    gLmut.hash ≠ Legacy.calculateHash hLC gLmut := by
  decide

/-- C9: witness for `isChainValid_characterisation` — a produced two-block
legacy chain validates, and mutating the nonce of the non-genesis block
(stored hash left stale) makes validation fail. -/
theorem isChainValid_characterisation_witness :
    Legacy.isChainValid hLC 0 [gL, bL] = true ∧
    Legacy.isChainValid hLC 0 ([gL, bL].set 1 bLmut) = false := by
  have hp : Legacy.Produced hLC 0 [gL, bL] := by
    have hext := @Legacy.Produced.extend hLC 0 [gL] gL bL (Legacy.Produced.start gL)
      (by decide) (by decide) (by decide) (by decide)
    simpa using hext
  exact ⟨(isChainValid_characterisation hLC 0 [gL, bL] hp).1,
    (isChainValid_characterisation hLC 0 [gL, bL] hp).2 1 bLmut (by decide)
      (by decide) (by decide)⟩

/-- C10: witness for `merkle_root_odd_padding` at the concrete singleton
list. -/
theorem merkle_root_odd_padding_witness :
    calculateMerkleRoot hsC [txA]
      = calculateMerkleRoot hsC ([txA] ++ [lastD [txA] dfltTx]) ∧
    (mkBlock hsC hhC 1 [txA] (zeroStr 64) 0 50).merkle_root
      = (mkBlock hsC hhC 1 [txA, txA] (zeroStr 64) 0 50).merkle_root ∧
    (mkBlock hsC hhC 1 [txA] (zeroStr 64) 0 50).hash
      = (mkBlock hsC hhC 1 [txA, txA] (zeroStr 64) 0 50).hash :=
  merkle_root_odd_padding hsC hhC [txA] txA 1 (zeroStr 64) 0 50 (by decide) (by decide)
